import Mathlib

/-!
Verification of the item description and help-layout rendering engine
(`src/item.rs`) of a command-line interface description library.

The Rust code is shallowly embedded: `&'static str` becomes `String`
(with `len` modelled as character count), `char` becomes `Char`,
panicking operations (usize subtraction underflow, `unwrap`,
`unreachable!`) are modelled by `Option` with `none` for the panic, and
the single environment read `std::env::var` is modelled by an explicit
environment mapping names to one of three results (present valid text,
not present, present but not unicode).
-/

namespace Bpaf

/-- Result of looking up one environment variable, mirroring the three
outcomes of `std::env::var`: `Ok(val)`, `Err(NotPresent)`,
`Err(NotUnicode(_))`. -/
inductive EnvVal where
  | text (v : String)
  | unset
  | nonUnicode
  deriving DecidableEq

/-- The process environment at render time: one `EnvVal` per name. -/
abbrev Env := String → EnvVal

/-- Rust `enum ShortLong` from `src/item.rs`: the name identity of a
flag/argument (short letter, long word, or both). -/
inductive ShortLong where
  | Short (c : Char)
  | Long (l : String)
  | Both (c : Char) (l : String)
  deriving DecidableEq

/-- Rust `enum Item` from `src/item.rs`: the closed set of renderable CLI
elements, each with optional help text. -/
inductive Item where
  | Decor (help : Option String)
  | Positional (metavar : String) (help : Option String)
  | Command (name : String) (short : Option Char) (help : Option String)
  | Flag (name : ShortLong) (help : Option String)
  | Argument (name : ShortLong) (metavar : String) (env : Option String)
      (help : Option String)
  deriving DecidableEq

/-- Rust `enum ItemKind` from `src/item.rs`. -/
inductive ItemKind where
  | Flag
  | Command
  | Decor
  | Positional
  deriving DecidableEq

/-- Rust `Item::kind`. -/
def Item.kind : Item → ItemKind
  | .Decor _ => .Decor
  | .Positional _ _ => .Positional
  | .Command _ _ _ => .Command
  | .Flag _ _ | .Argument _ _ _ _ => .Flag

/-- Rust `Item::help`. -/
def Item.help : Item → Option String
  | .Decor h => h
  | .Command _ _ h => h
  | .Flag _ h => h
  | .Argument _ _ _ h => h
  | .Positional _ h => h

/-- The external collaborator `Named`: ordered, possibly repeating
alias lists. Its definition lives outside `src/item.rs`; the fields and
their use (`is_empty`, index `[0]`) are exactly those the conversion in
`src/item.rs` relies on. -/
structure Named where
  short : List Char
  long : List String

/-- Rust `impl From<&Named> for ShortLong`. The `unreachable!` on an alias
collection with neither short nor long aliases is modelled as `none`. -/
def ShortLong.fromNamed (named : Named) : Option ShortLong :=
  match named.short.isEmpty, named.long.isEmpty with
  | true, true => none
  | true, false => some (.Long (named.long.headD ""))
  | false, true => some (.Short (named.short.headD ' '))
  | false, false => some (.Both (named.short.headD ' ') (named.long.headD ""))

/-- Rust `ShortLong::full_width`. -/
def ShortLong.full_width : ShortLong → Nat
  | .Short _ => 2
  | .Long l | .Both _ l => 6 + l.length

/-- Rust `Item::full_width`: full width for the name, including implicit
short flag, space and comma between short and long parameters and
metavar variable if present. -/
def Item.full_width : Item → Nat
  | .Decor _ => 0
  | .Flag name _ => name.full_width
  | .Argument name metavar _ _ => name.full_width + metavar.length + 3
  | .Positional metavar _ => metavar.length + 2
  | .Command name short _ => name.length + (match short with | some _ => 3 | none => 0)

/-- Rust `Item::is_command`. -/
def Item.is_command (it : Item) : Bool :=
  match it.kind with
  | .Command => true
  | .Flag | .Decor | .Positional => false

/-- Rust `Item::is_flag`. -/
def Item.is_flag (it : Item) : Bool :=
  match it.kind with
  | .Flag | .Decor => true
  | .Command | .Positional => false

/-- Rust `Item::is_positional`. -/
def Item.is_positional (it : Item) : Bool :=
  match it.kind with
  | .Positional => it.help.isSome
  | .Flag | .Decor | .Command => false

/-- A run of `n` spaces, mirroring the Rust format padding of an empty
string to width `n`. -/
def spaces (n : Nat) : String := String.mk (List.replicate n ' ')

/-- One character of Rust's `Debug` escaping of a string (the `{:?}`
format used for the environment value). The common escapes are
modelled; `escape_debug` additionally escapes other control and
non-printable characters, which never occur in the values considered
here. Every produced fragment is newline-free. -/
def escapeDebugChar (c : Char) : String :=
  if c = '"' then "\\\""
  else if c = '\\' then "\\\\"
  else if c = '\n' then "\\n"
  else if c = '\t' then "\\t"
  else if c = '\r' then "\\r"
  else c.toString

/-- Concatenation of a list of strings. -/
def concatAll : List String → String
  | [] => ""
  | s :: ss => s ++ concatAll ss

/-- Rust's `format!("{:?}", s)` for a string `s`: quoted and escaped. -/
def rustDebug (s : String) : String :=
  "\"" ++ concatAll (s.data.map escapeDebugChar) ++ "\""

/-- The environment annotation value for an `Argument` bound to
environment variable `ename` (the `val` local in the Rust `Display`
implementation). -/
def envVal (env : Env) (ename : String) : String :=
  match env ename with
  | .text v => " = " ++ rustDebug v
  | .unset => ": N/A"
  | .nonUnicode => ": current value is not utf8"

/-- Rust `impl Display for ShortLong`, alternate (`{:#}`) arm. -/
def ShortLong.fmtAlt : ShortLong → String
  | .Short c => "-" ++ c.toString
  | .Long l => "    --" ++ l
  | .Both c l => "-" ++ c.toString ++ ", --" ++ l

/-- Rust `impl Display for ShortLong`, non-alternate (`{}`) arm. -/
def ShortLong.fmtCompact : ShortLong → String
  | .Short c | .Both c _ => "-" ++ c.toString
  | .Long l => "--" ++ l

/-- Rust `str::split('\n')` on the underlying character list. -/
def splitCh : List Char → List (List Char)
  | [] => [[]]
  | c :: cs =>
    if c = '\n' then [] :: splitCh cs
    else
      match splitCh cs with
      | [] => [[c]]
      | l :: ls => (c :: l) :: ls

/-- Rust `str::split('\n')` on strings. -/
def splitNl (s : String) : List String := (splitCh s.data).map String.mk

/-- The help lines after the first, each rendered as
`"\n" ++ width spaces ++ six spaces ++ line` (the `ix > 0` arm of the
help loop). -/
def renderHelpRest (w : Nat) : List String → String
  | [] => ""
  | l :: ls => "\n" ++ spaces w ++ "      " ++ l ++ renderHelpRest w ls

/-- The help rendering loop: first line after the pad with a two-space
gap, subsequent lines re-indented. -/
def renderHelp (w pad : Nat) : List String → String
  | [] => ""
  | l :: ls => spaces pad ++ "  " ++ l ++ renderHelpRest w ls

/-- The per-variant first segment of the alternate (`{:#}`) rendering
of an `Item`, including the environment annotation of an `Argument`
when both a width and an environment name are present. The usize
subtraction `width - self.full_width()` is modelled as `none`
(panic) on underflow. -/
def seg1Alt (it : Item) (width : Option Nat) (env : Env) : Option String :=
  match it with
  | .Flag name _ => some ("    " ++ name.fmtAlt)
  | .Argument name metavar e hlp =>
    let base := "    " ++ name.fmtAlt ++ " <" ++ metavar ++ ">"
    match width, e with
    | some w, some ename =>
      if (Item.Argument name metavar e hlp).full_width ≤ w then
        some (base ++ spaces (w - (Item.Argument name metavar e hlp).full_width)
          ++ "  [env:" ++ ename ++ envVal env ename ++ "]\n"
          ++ spaces (4 + (Item.Argument name metavar e hlp).full_width))
      else none
    | _, _ => some base
  | .Decor hlp => some (if hlp.isSome then "    " else "")
  | .Positional metavar _ => some ("    <" ++ metavar ++ ">")
  | .Command name short _ =>
    match short with
    | some s => some ("    " ++ name ++ ", " ++ s.toString)
    | none => some ("    " ++ name)

/-- The non-alternate (`{}`) rendering of an `Item`: the inline usage
fragment. -/
def compactStr : Item → String
  | .Decor _ => ""
  | .Positional metavar _ => "<" ++ metavar ++ ">"
  | .Command _ _ _ => "COMMAND ..."
  | .Flag name _ => name.fmtCompact
  | .Argument name metavar _ _ => name.fmtCompact ++ " " ++ metavar

/-- Rust `impl Display for Item`. Here `alternate` selects the expanded arm;
`width` is the format width (`f.width()`); `env` is the process
environment. `none` models a panic: underflow of
`width - self.full_width()`, or `f.width().unwrap()` with no width. -/
def Item.fmt (alternate : Bool) (width : Option Nat) (env : Env) (it : Item) :
    Option String :=
  if alternate then
    match seg1Alt it width env with
    | none => none
    | some s =>
      match width with
      | none => none
      | some w =>
        match it.help with
        | some h =>
          if it.full_width ≤ w then
            some (s ++ renderHelp w (w - it.full_width) (splitNl h))
          else none
        | none => some s
  else some (compactStr it)

/-- Expanded (help-table) rendering with a supplied column width. -/
def renderExpanded (it : Item) (w : Nat) (env : Env) : Option String :=
  it.fmt true (some w) env

/-- A fixed environment with every variable unset. -/
def envAllUnset : Env := fun _ => .unset

/-- A string containing no newline character. -/
def noNl (s : String) : Prop := '\n' ∉ s.data

instance (s : String) : Decidable (noNl s) :=
  inferInstanceAs (Decidable ('\n' ∉ s.data))

/-- A name identity whose rendered forms contain no newline: the short
character is not a newline and the long name is newline-free. -/
def slClean : ShortLong → Prop
  | .Short c => c ≠ '\n'
  | .Long l => noNl l
  | .Both c l => c ≠ '\n' ∧ noNl l

instance : (sl : ShortLong) → Decidable (slClean sl)
  | .Short c => inferInstanceAs (Decidable (c ≠ '\n'))
  | .Long l => inferInstanceAs (Decidable (noNl l))
  | .Both c l => inferInstanceAs (Decidable (c ≠ '\n' ∧ noNl l))

/-- An item whose string fields (names, metavar, short alias) contain
no newline character. -/
def itemClean : Item → Prop
  | .Decor _ => True
  | .Positional mv _ => noNl mv
  | .Command n s _ => noNl n ∧ (match s with | some c => c ≠ '\n' | none => True)
  | .Flag name _ => slClean name
  | .Argument name mv _ _ => slClean name ∧ noNl mv

instance : (it : Item) → Decidable (itemClean it)
  | .Decor _ => inferInstanceAs (Decidable True)
  | .Positional mv _ => inferInstanceAs (Decidable (noNl mv))
  | .Command n (some c) _ => inferInstanceAs (Decidable (noNl n ∧ c ≠ '\n'))
  | .Command n none _ => inferInstanceAs (Decidable (noNl n ∧ True))
  | .Flag name _ => inferInstanceAs (Decidable (slClean name))
  | .Argument name mv _ _ => inferInstanceAs (Decidable (slClean name ∧ noNl mv))

/-- An item that carries no environment-variable binding (every item
other than an `Argument` with a bound environment name). -/
def noEnvBinding : Item → Prop
  | .Argument _ _ (some _) _ => False
  | _ => True

end Bpaf

namespace Bpaf

theorem data_append (a b : String) : (a ++ b).data = a.data ++ b.data := rfl

theorem data_mk (l : List Char) : (String.mk l).data = l := rfl

theorem mk_data (s : String) : String.mk s.data = s := rfl

theorem data_char (c : Char) : c.toString.data = [c] := rfl

theorem length_data (s : String) : s.length = s.data.length := rfl

theorem spaces_data (n : Nat) : (spaces n).data = List.replicate n ' ' := rfl

theorem two_spaces : ("  " : String) = spaces 2 := rfl

theorem six_spaces : ("      " : String) = spaces 6 := rfl

theorem spaces_append (m n : Nat) : spaces m ++ spaces n = spaces (m + n) :=
  String.ext (by rw [data_append, spaces_data, spaces_data, spaces_data, List.replicate_add])

theorem spaces_length (n : Nat) : (spaces n).length = n := by
  simp [length_data, spaces_data]

theorem noNl_spaces (n : Nat) : noNl (spaces n) := by
  simp [noNl, spaces_data, List.mem_replicate]

theorem noNl_append {a b : String} : noNl (a ++ b) ↔ noNl a ∧ noNl b := by
  simp [noNl, data_append, not_or]

theorem noNl_char {c : Char} (h : c ≠ '\n') : noNl c.toString :=
  fun hm => h (List.mem_singleton.mp hm).symm

theorem count_nl_zero {s : String} (h : noNl s) : s.data.count '\n' = 0 :=
  List.count_eq_zero.mpr h

theorem noNl_fmtAlt {sl : ShortLong} (h : slClean sl) : noNl sl.fmtAlt := by
  cases sl with
  | Short c =>
    rw [ShortLong.fmtAlt, noNl_append]
    exact ⟨by decide, noNl_char h⟩
  | Long l =>
    rw [ShortLong.fmtAlt, noNl_append]
    exact ⟨by decide, h⟩
  | Both c l =>
    rw [ShortLong.fmtAlt, noNl_append, noNl_append, noNl_append]
    exact ⟨⟨⟨by decide, noNl_char h.1⟩, by decide⟩, h.2⟩

theorem noNl_fmtCompact {sl : ShortLong} (h : slClean sl) : noNl sl.fmtCompact := by
  cases sl with
  | Short c =>
    rw [ShortLong.fmtCompact, noNl_append]
    exact ⟨by decide, noNl_char h⟩
  | Long l =>
    rw [ShortLong.fmtCompact, noNl_append]
    exact ⟨by decide, h⟩
  | Both c l =>
    rw [ShortLong.fmtCompact, noNl_append]
    exact ⟨by decide, noNl_char h.1⟩

theorem noNl_escapeDebugChar (c : Char) : noNl (escapeDebugChar c) := by
  unfold escapeDebugChar
  split_ifs with h1 h2 h3 h4 h5
  · decide
  · decide
  · decide
  · decide
  · decide
  · exact noNl_char h3

theorem noNl_concatAll {l : List String} (h : ∀ s ∈ l, noNl s) : noNl (concatAll l) := by
  induction l with
  | nil => decide
  | cons s ss ih =>
    rw [concatAll, noNl_append]
    exact ⟨h s (List.mem_cons_self _ _), ih fun t ht => h t (List.mem_cons_of_mem _ ht)⟩

theorem noNl_rustDebug (v : String) : noNl (rustDebug v) := by
  rw [rustDebug, noNl_append, noNl_append]
  refine ⟨⟨by decide, noNl_concatAll ?_⟩, by decide⟩
  intro s hs
  obtain ⟨c, _, rfl⟩ := List.mem_map.mp hs
  exact noNl_escapeDebugChar c

theorem noNl_envVal (env : Env) (e : String) : noNl (envVal env e) := by
  unfold envVal
  cases env e with
  | text v =>
    rw [noNl_append]
    exact ⟨by decide, noNl_rustDebug v⟩
  | unset => decide
  | nonUnicode => decide

theorem fmtAlt_length (sl : ShortLong) : sl.fmtAlt.length = sl.full_width := by
  cases sl with
  | Short c => rfl
  | Long l =>
    show ("    --" ++ l).length = 6 + l.length
    rw [length_data, data_append, List.length_append]
    have h6 : ("    --" : String).data.length = 6 := rfl
    rw [h6, length_data]
  | Both c l =>
    show ("-" ++ c.toString ++ ", --" ++ l).length = 6 + l.length
    rw [length_data, data_append, data_append, data_append, data_char,
        List.length_append, List.length_append, List.length_append]
    have h1 : ("-" : String).data.length = 1 := rfl
    have hc : ([c] : List Char).length = 1 := rfl
    have h4 : (", --" : String).data.length = 4 := rfl
    have hl : l.length = l.data.length := rfl
    omega

theorem splitCh_ne_nil (l : List Char) : splitCh l ≠ [] := by
  induction l with
  | nil => simp [splitCh]
  | cons c cs ih =>
    rw [splitCh]
    split_ifs
    · simp
    · cases h : splitCh cs with
      | nil => simp
      | cons p ps => simp

theorem splitCh_no_nl {l : List Char} (h : '\n' ∉ l) : splitCh l = [l] := by
  induction l with
  | nil => rfl
  | cons c cs ih =>
    rw [splitCh]
    have hc : ¬ c = '\n' := fun hc => h (hc ▸ List.mem_cons_self _ _)
    rw [if_neg hc, ih fun hm => h (List.mem_cons_of_mem _ hm)]

theorem splitCh_append {a : List Char} (b : List Char) (h : '\n' ∉ a) :
    splitCh (a ++ '\n' :: b) = a :: splitCh b := by
  induction a with
  | nil => simp [splitCh]
  | cons c cs ih =>
    have hc : ¬ c = '\n' := fun hc => h (hc ▸ List.mem_cons_self _ _)
    rw [List.cons_append, splitCh, if_neg hc,
      ih fun hm => h (List.mem_cons_of_mem _ hm)]

theorem mem_splitCh_no_nl {l : List Char} {p : List Char} (hp : p ∈ splitCh l) :
    '\n' ∉ p := by
  induction l generalizing p with
  | nil =>
    rw [splitCh] at hp
    simp at hp
    simp [hp]
  | cons c cs ih =>
    rw [splitCh] at hp
    by_cases hc : c = '\n'
    · rw [if_pos hc] at hp
      rcases List.mem_cons.mp hp with h0 | h0
      · simp [h0]
      · exact ih h0
    · rw [if_neg hc] at hp
      cases hsp : splitCh cs with
      | nil => exact absurd hsp (splitCh_ne_nil cs)
      | cons q qs =>
        rw [hsp] at hp
        rcases List.mem_cons.mp hp with h0 | h0
        · subst h0
          intro hm
          rcases List.mem_cons.mp hm with h1 | h1
          · exact hc h1.symm
          · exact ih (hsp ▸ List.mem_cons_self q qs) h1
        · exact ih (hsp ▸ List.mem_cons_of_mem q h0)

theorem splitNl_two {a b : String} (ha : noNl a) (hb : noNl b) :
    splitNl (a ++ "\n" ++ b) = [a, b] := by
  have hdata : (a ++ "\n" ++ b).data = a.data ++ '\n' :: b.data := by
    simp [data_append]
  rw [splitNl, hdata, splitCh_append _ ha, splitCh_no_nl hb]
  simp [mk_data]

end Bpaf

namespace Bpaf

/-- Claim C5: `ShortLong.full_width` is 2 for a short-only name and
`6 + length(long)` when a long name is present, alone or with a short
one. -/
theorem claim_C5 :
    (∀ c : Char, (ShortLong.Short c).full_width = 2) ∧
    (∀ l : String, (ShortLong.Long l).full_width = 6 + l.length) ∧
    (∀ (c : Char) (l : String), (ShortLong.Both c l).full_width = 6 + l.length) :=
  ⟨fun _ => rfl, fun _ => rfl, fun _ _ => rfl⟩

/-- Claim C6: `Item.full_width` per variant: 0 for Decor; the name's
width for Flag; name width + metavar length + 3 for Argument; metavar
length + 2 for Positional; name length plus 3 when a short alias
exists, else name length, for Command. -/
theorem claim_C6 :
    (∀ h, (Item.Decor h).full_width = 0) ∧
    (∀ n h, (Item.Flag n h).full_width = n.full_width) ∧
    (∀ n mv e h, (Item.Argument n mv e h).full_width = n.full_width + mv.length + 3) ∧
    (∀ mv h, (Item.Positional mv h).full_width = mv.length + 2) ∧
    (∀ nm c h, (Item.Command nm (some c) h).full_width = nm.length + 3) ∧
    (∀ nm h, (Item.Command nm none h).full_width = nm.length) :=
  ⟨fun _ => rfl, fun _ _ => rfl, fun _ _ _ _ => rfl, fun _ _ => rfl,
   fun _ _ _ => rfl, fun _ _ => rfl⟩

/-- Claim C8: compact rendering of a Flag emits exactly one name form,
preferring the short one: `-c` for Short or ShortLong, `--name` for
Long; never both. -/
theorem claim_C8 :
    ∀ (hlp : Option String) (w : Option Nat) (env : Env),
    (∀ c : Char,
      Item.fmt false w env (.Flag (.Short c) hlp) = some ("-" ++ c.toString)) ∧
    (∀ (c : Char) (l : String),
      Item.fmt false w env (.Flag (.Both c l) hlp) = some ("-" ++ c.toString)) ∧
    (∀ l : String,
      Item.fmt false w env (.Flag (.Long l) hlp) = some ("--" ++ l)) :=
  fun _ _ _ => ⟨fun _ => rfl, fun _ _ => rfl, fun _ => rfl⟩

/-- Claim C9: converting a `Named` alias collection selects
the first short and the first long alias present, and is the fatal
(`unreachable!`, modelled as `none`) outcome exactly when both alias
lists are empty. -/
theorem claim_C9 :
    ∀ n : Named, ShortLong.fromNamed n =
      match n.short, n.long with
      | [], [] => none
      | [], l :: _ => some (.Long l)
      | s :: _, [] => some (.Short s)
      | s :: _, l :: _ => some (.Both s l) := by
  intro n
  obtain ⟨s, l⟩ := n
  cases s <;> cases l <;> rfl

/-- Claim C2, counterexample: a Positional whose help is present but
empty still has `is_positional = true`, though the claim requires
`false` for a Positional with empty help text. -/
theorem claim_C2_cex :
    (Item.Positional "FILE" (some "")).is_positional = true := rfl

/-- Claim C2 (amended): `is_positional` is true iff the item is a
Positional variant whose help is present (`Some`, possibly the empty
string); false when help is absent and for every non-Positional
variant. -/
theorem claim_C2 :
    ∀ it : Item, it.is_positional = true ↔
      ∃ mv h, it = Item.Positional mv (some h) := by
  intro it
  cases it with
  | Positional mv h =>
    cases h with
    | none => simp [Item.is_positional, Item.kind, Item.help]
    | some s =>
      constructor
      · intro _; exact ⟨mv, s, rfl⟩
      · intro _; rfl
  | Decor h => simp [Item.is_positional, Item.kind]
  | Command n s h => simp [Item.is_positional, Item.kind]
  | Flag n h => simp [Item.is_positional, Item.kind]
  | Argument n mv e h => simp [Item.is_positional, Item.kind]

theorem append_empty (s : String) : s ++ "" = s :=
  String.ext (by rw [data_append]; exact List.append_nil _)

theorem length_append (a b : String) : (a ++ b).length = a.length + b.length :=
  List.length_append _ _

theorem noNl_compactStr {it : Item} (h : itemClean it) : noNl (compactStr it) := by
  cases it with
  | Decor hlp => exact (by decide : noNl "")
  | Positional mv hlp =>
    show noNl ("<" ++ mv ++ ">")
    rw [noNl_append, noNl_append]
    exact ⟨⟨by decide, h⟩, by decide⟩
  | Command n s hlp => exact (by decide : noNl "COMMAND ...")
  | Flag name hlp => exact noNl_fmtCompact h
  | Argument name mv e hlp =>
    show noNl (ShortLong.fmtCompact name ++ " " ++ mv)
    rw [noNl_append, noNl_append]
    exact ⟨⟨noNl_fmtCompact h.1, by decide⟩, h.2⟩

theorem fmt_expanded_some_help (it : Item) (w : Nat) (env : Env) (s0 h : String)
    (hseg : seg1Alt it (some w) env = some s0)
    (hh : it.help = some h) (hw : it.full_width ≤ w) :
    renderExpanded it w env =
      some (s0 ++ renderHelp w (w - it.full_width) (splitNl h)) := by
  unfold renderExpanded Item.fmt
  simp [hseg, hh, hw]

theorem fmt_expanded_no_help (it : Item) (w : Nat) (env : Env) (s0 : String)
    (hseg : seg1Alt it (some w) env = some s0)
    (hh : it.help = none) :
    renderExpanded it w env = some s0 := by
  unfold renderExpanded Item.fmt
  simp [hseg, hh]

theorem seg1_Arg_env (name : ShortLong) (mv e : String) (hlp : Option String)
    (w : Nat) (env : Env)
    (hw : (Item.Argument name mv (some e) hlp).full_width ≤ w) :
    seg1Alt (Item.Argument name mv (some e) hlp) (some w) env =
      some ("    " ++ name.fmtAlt ++ " <" ++ mv ++ ">"
        ++ spaces (w - (Item.Argument name mv (some e) hlp).full_width)
        ++ "  [env:" ++ e ++ envVal env e ++ "]\n"
        ++ spaces (4 + (Item.Argument name mv (some e) hlp).full_width)) := by
  simp only [seg1Alt]
  rw [if_pos hw]

/-- Claim C3 (amended): expanded rendering with a width strictly below
the item's `full_width` is rejected (the padding subtraction fails
fast, modelled as `none`) for every item that carries help text, and
for every Argument with a bound environment variable; it never
produces truncated output. An item with no help text and no
environment binding is rendered successfully regardless of the width
(see the counterexample). -/
theorem claim_C3 (it : Item) (w : Nat) (env : Env)
    (hw : w < it.full_width)
    (hcase : it.help.isSome = true ∨ ∃ n mv e h, it = Item.Argument n mv (some e) h) :
    renderExpanded it w env = none := by
  have hnle : ¬ it.full_width ≤ w := Nat.not_le.mpr hw
  rcases hcase with hh | ⟨n, mv, e, h, rfl⟩
  · obtain ⟨h0, hh0⟩ := Option.isSome_iff_exists.mp hh
    unfold renderExpanded Item.fmt
    rw [if_pos rfl]
    cases hseg : seg1Alt it (some w) env with
    | none => rfl
    | some s => simp [hh0, hnle]
  · unfold renderExpanded Item.fmt
    rw [if_pos rfl]
    simp [seg1Alt, hnle]

/-- Witness for claim C3 at a concrete input: a Flag with help text
rendered at width 0 (below its natural width 2) is rejected. -/
theorem claim_C3_w :
    0 < (Item.Flag (.Short 'f') (some "h")).full_width ∧
    renderExpanded (Item.Flag (.Short 'f') (some "h")) 0 envAllUnset = none :=
  ⟨by decide,
   claim_C3 (Item.Flag (.Short 'f') (some "h")) 0 envAllUnset (by decide)
     (Or.inl (by decide))⟩

/-- Claim C3, counterexample to the claim as stated: a Flag with no
help text, rendered in expanded mode at width 0 (strictly below its
`full_width` of 2), is not rejected: the code computes no pad in that
case and rendering succeeds. -/
theorem claim_C3_cex :
    0 < (Item.Flag (.Short 'f') none).full_width ∧
    renderExpanded (Item.Flag (.Short 'f') none) 0 envAllUnset = some "    -f" := by
  constructor
  · decide
  · decide

/-- Claim C10 (amended): compact (non-alternate) rendering never reads
the environment — any two environments (and any two widths) give the
identical output — and, for every item whose string fields contain no
newline, that output contains no newline characters. -/
theorem claim_C10 (it : Item) (w1 w2 : Option Nat) (env1 env2 : Env) :
    Item.fmt false w1 env1 it = Item.fmt false w2 env2 it ∧
    (itemClean it → ∀ s, Item.fmt false w1 env1 it = some s → noNl s) := by
  constructor
  · rfl
  · intro hc s hs
    have heq : Item.fmt false w1 env1 it = some (compactStr it) := rfl
    rw [heq] at hs
    exact (Option.some.inj hs) ▸ noNl_compactStr hc

/-- Witness for claim C10 at a concrete input: a short flag rendered
compactly under two different environments gives the same newline-free
output. -/
theorem claim_C10_w :
    Item.fmt false none envAllUnset (Item.Flag (.Short 'f') none) =
      Item.fmt false none (fun _ => EnvVal.text "x") (Item.Flag (.Short 'f') none) ∧
    noNl "-f" :=
  ⟨(claim_C10 (Item.Flag (.Short 'f') none) none none envAllUnset
      (fun _ => EnvVal.text "x")).1,
   (claim_C10 (Item.Flag (.Short 'f') none) none none envAllUnset
      (fun _ => EnvVal.text "x")).2 (by decide) "-f" (by decide)⟩

/-- Claim C10, counterexample to the claim as stated: a Positional
whose metavar itself contains a line break yields a compact rendering
containing a newline character. -/
theorem claim_C10_cex :
    Item.fmt false none envAllUnset (Item.Positional "a\nb" none) = some "<a\nb>" ∧
    ¬ noNl "<a\nb>" := ⟨by decide, by decide⟩

/-- Claim C1: expanded rendering of an Argument bound to an
environment variable, at a sufficient width, reads the variable and
appends, after the name/metavar segment and before the help text,
exactly one of the three annotations: ` = "v"` (Debug-escaped) when
the variable holds valid text, `: N/A` when it is unset, and
`: current value is not utf8` when its contents are not valid text;
in all three states rendering succeeds (never `none`). -/
theorem claim_C1 (name : ShortLong) (mv ename : String) (hlp : Option String)
    (w : Nat) (env : Env)
    (hw : (Item.Argument name mv (some ename) hlp).full_width ≤ w) :
    renderExpanded (Item.Argument name mv (some ename) hlp) w env =
      some ("    " ++ name.fmtAlt ++ " <" ++ mv ++ ">"
        ++ spaces (w - (Item.Argument name mv (some ename) hlp).full_width)
        ++ "  [env:" ++ ename
        ++ (match env ename with
            | EnvVal.text v => " = " ++ rustDebug v
            | EnvVal.unset => ": N/A"
            | EnvVal.nonUnicode => ": current value is not utf8")
        ++ "]\n"
        ++ spaces (4 + (Item.Argument name mv (some ename) hlp).full_width)
        ++ (match hlp with
            | some h =>
              renderHelp w (w - (Item.Argument name mv (some ename) hlp).full_width)
                (splitNl h)
            | none => "")) := by
  have hbr : ("]\n" : String).data = [']', '\n'] := rfl
  have hb1 : ("]" : String).data = [']'] := rfl
  have hn1 : ("\n" : String).data = ['\n'] := rfl
  cases hlp with
  | some h =>
    rw [fmt_expanded_some_help _ w env _ h (seg1_Arg_env name mv ename (some h) w env hw)
      rfl hw]
    refine congrArg some (String.ext ?_)
    cases henv : env ename <;>
      simp [envVal, henv, data_append, hbr, hb1, hn1, List.append_assoc]
  | none =>
    rw [fmt_expanded_no_help _ w env _ (seg1_Arg_env name mv ename none w env hw) rfl]
    refine congrArg some (String.ext ?_)
    cases henv : env ename <;>
      simp [envVal, henv, data_append, hbr, hb1, hn1, List.append_assoc]

theorem noNl_mem_splitNl {h l : String} (hl : l ∈ splitNl h) : noNl l := by
  obtain ⟨p, hp, rfl⟩ := List.mem_map.mp hl
  exact mem_splitCh_no_nl hp

theorem renderHelpRest_eq (w : Nat) (ls : List String) :
    renderHelpRest w ls = concatAll (ls.map fun l => "\n" ++ (spaces (w + 6) ++ l)) := by
  induction ls with
  | nil => rfl
  | cons l ls ih =>
    simp only [renderHelpRest, List.map, concatAll, ih]
    refine String.ext ?_
    have h6 : ("      " : String).data = List.replicate 6 ' ' := rfl
    simp [data_append, spaces_data, h6, List.append_assoc, List.replicate_add]

theorem count_helpRest (w : Nat) (ls : List String) (hls : ∀ l ∈ ls, noNl l) :
    (concatAll (ls.map fun l => "\n" ++ (spaces (w + 6) ++ l))).data.count '\n'
      = ls.length := by
  induction ls with
  | nil => rfl
  | cons l ls ih =>
    simp only [List.map, concatAll]
    have hl : noNl l := hls l (List.mem_cons_self _ _)
    have ih2 := ih fun x hx => hls x (List.mem_cons_of_mem _ hx)
    have cn : ("\n" : String).data.count '\n' = 1 := rfl
    have csp : ∀ n : Nat, (spaces n).data.count '\n' = 0 :=
      fun n => count_nl_zero (noNl_spaces n)
    simp [data_append, List.count_append, cn, csp, count_nl_zero hl, ih2]

theorem seg1_some (it : Item) (w : Nat) (env : Env) (hw : it.full_width ≤ w) :
    ∃ s0, seg1Alt it (some w) env = some s0 := by
  cases it with
  | Decor hlp => exact ⟨_, rfl⟩
  | Positional mv hlp => exact ⟨_, rfl⟩
  | Command n sh hlp => cases sh <;> exact ⟨_, rfl⟩
  | Flag name hlp => exact ⟨_, rfl⟩
  | Argument name mv e hlp =>
    cases e with
    | none => exact ⟨_, rfl⟩
    | some e0 => exact ⟨_, seg1_Arg_env name mv e0 hlp w env hw⟩

theorem noNl_seg1 {it : Item} {w : Nat} {env : Env} {s0 : String}
    (hseg : seg1Alt it (some w) env = some s0)
    (hne : noEnvBinding it) (hc : itemClean it) : noNl s0 := by
  cases it with
  | Decor hlp =>
    have h2 : (if hlp.isSome then ("    " : String) else "") = s0 := Option.some.inj hseg
    rw [← h2]
    split_ifs <;> decide
  | Positional mv hlp =>
    have h2 : ("    <" ++ mv ++ ">") = s0 := Option.some.inj hseg
    rw [← h2, noNl_append, noNl_append]
    exact ⟨⟨by decide, hc⟩, by decide⟩
  | Command n sh hlp =>
    cases sh with
    | none =>
      have h2 : ("    " ++ n) = s0 := Option.some.inj hseg
      rw [← h2, noNl_append]
      exact ⟨by decide, hc.1⟩
    | some c =>
      have h2 : ("    " ++ n ++ ", " ++ c.toString) = s0 := Option.some.inj hseg
      rw [← h2, noNl_append, noNl_append, noNl_append]
      exact ⟨⟨⟨by decide, hc.1⟩, by decide⟩, noNl_char hc.2⟩
  | Flag name hlp =>
    have h2 : ("    " ++ name.fmtAlt) = s0 := Option.some.inj hseg
    rw [← h2, noNl_append]
    exact ⟨by decide, noNl_fmtAlt hc⟩
  | Argument name mv e hlp =>
    cases e with
    | some e0 => exact hne.elim
    | none =>
      have h2 : ("    " ++ name.fmtAlt ++ " <" ++ mv ++ ">") = s0 := Option.some.inj hseg
      rw [← h2, noNl_append, noNl_append, noNl_append, noNl_append]
      exact ⟨⟨⟨⟨by decide, noNl_fmtAlt hc.1⟩, by decide⟩, hc.2⟩, by decide⟩

/-- Claim C4 (amended): for every Item whose help text splits on line
breaks into a first line `l0` and further lines `ls`, expanded
rendering at a sufficient width emits, after the item's first output
segment, the pad of `width - full_width()` spaces, a two-space gap and
the first help line, and then every subsequent help line on a new
output line indented by exactly `width + 6` spaces with no name or pad
prefix; the split pieces are newline-free, so the row's newline count
is the first segment's newline count plus the number of help line
breaks. In particular help text of two lines yields exactly two
physical output lines when the item is not an Argument with a bound
environment variable (whose annotation ends with a line break of its
own, making three) and its string fields contain no line break (the
first segment is then newline-free, last conjunct). -/
theorem claim_C4 (it : Item) (w : Nat) (env : Env) (h l0 : String) (ls : List String)
    (hh : it.help = some h) (hsplit : splitNl h = l0 :: ls)
    (hw : it.full_width ≤ w) :
    ∃ s0 : String,
      seg1Alt it (some w) env = some s0 ∧
      renderExpanded it w env =
        some (s0 ++ (spaces (w - it.full_width) ++ "  " ++ l0
          ++ concatAll (ls.map fun l => "\n" ++ (spaces (w + 6) ++ l)))) ∧
      noNl l0 ∧ (∀ l ∈ ls, noNl l) ∧
      (s0 ++ (spaces (w - it.full_width) ++ "  " ++ l0
          ++ concatAll (ls.map fun l => "\n" ++ (spaces (w + 6) ++ l)))).data.count '\n'
        = s0.data.count '\n' + ls.length ∧
      (noEnvBinding it → itemClean it → noNl s0) := by
  obtain ⟨s0, hseg⟩ := seg1_some it w env hw
  have hl0 : noNl l0 :=
    noNl_mem_splitNl (by rw [hsplit]; exact List.mem_cons_self _ _)
  have hls : ∀ l ∈ ls, noNl l :=
    fun l hl => noNl_mem_splitNl (by rw [hsplit]; exact List.mem_cons_of_mem _ hl)
  refine ⟨s0, hseg, ?_, hl0, hls, ?_, fun hne hc => noNl_seg1 hseg hne hc⟩
  · rw [fmt_expanded_some_help it w env s0 h hseg hh hw, hsplit]
    simp only [renderHelp, renderHelpRest_eq]
  · have c2 : ("  " : String).data.count '\n' = 0 := rfl
    have csp : ∀ n : Nat, (spaces n).data.count '\n' = 0 :=
      fun n => count_nl_zero (noNl_spaces n)
    have hrest := count_helpRest w ls hls
    simp [data_append, List.count_append, c2, csp, count_nl_zero hl0, hrest]

/-- Witness for claim C4 at a concrete input: a short flag with help
text of two lines `a` and `b`, rendered at its natural width 2. -/
theorem claim_C4_w :
    ∃ s0 : String,
      seg1Alt (Item.Flag (.Short 'f') (some "a\nb")) (some 2) envAllUnset = some s0 ∧
      renderExpanded (Item.Flag (.Short 'f') (some "a\nb")) 2 envAllUnset =
        some (s0 ++ (spaces (2 - (Item.Flag (.Short 'f') (some "a\nb")).full_width)
          ++ "  " ++ "a"
          ++ concatAll (["b"].map fun l => "\n" ++ (spaces (2 + 6) ++ l)))) ∧
      noNl "a" ∧ (∀ l ∈ ["b"], noNl l) ∧
      (s0 ++ (spaces (2 - (Item.Flag (.Short 'f') (some "a\nb")).full_width)
          ++ "  " ++ "a"
          ++ concatAll (["b"].map fun l => "\n" ++ (spaces (2 + 6) ++ l)))).data.count '\n'
        = s0.data.count '\n' + (["b"] : List String).length ∧
      (noEnvBinding (Item.Flag (.Short 'f') (some "a\nb")) →
        itemClean (Item.Flag (.Short 'f') (some "a\nb")) → noNl s0) :=
  claim_C4 (Item.Flag (.Short 'f') (some "a\nb")) 2 envAllUnset "a\nb" "a" ["b"]
    rfl (by decide) (by decide)

/-- Claim C4, counterexample to the claim as stated, in its two
universally quantified parts: first, an Argument bound to an
environment variable, help `a` newline `b`, renders to three physical
output lines (two newline characters), because the environment
annotation itself ends with a line break; second, a Flag whose long
name contains a line break also renders to three physical lines, the
extra break coming from the name segment. Each input falsifies the
claimed "exactly two physical output lines". -/
theorem claim_C4_cex :
    (renderExpanded (Item.Argument (.Short 'a') "M" (some "E") (some "a\nb")) 6
        envAllUnset).map (fun s => s.data.count '\n') = some 2 ∧
    (renderExpanded (Item.Flag (.Long "x\ny") (some "a\nb")) 10
        envAllUnset).map (fun s => s.data.count '\n') = some 2 := by
  constructor
  · decide
  · decide

/-- Claim C7: for an Argument bound to an environment variable,
rendered at a sufficient width, the first help line begins at column
`width + 6` of its physical row — the same column as in the rendering
of the identical Argument without the environment binding: without the
binding the text before the first help line has length `width + 6` and
no newline; with the binding the first help line is preceded on its
row by exactly `width + 6` spaces, and the help tail is identical. -/
theorem claim_C7 (name : ShortLong) (mv e h a : String) (rest : List String)
    (w : Nat) (env : Env)
    (hsplit : splitNl h = a :: rest)
    (hname : slClean name) (hmv : noNl mv) (he : noNl e)
    (hw : (Item.Argument name mv (some e) (some h)).full_width ≤ w) :
    ∃ pre1 pre2 tail : String,
      renderExpanded (Item.Argument name mv none (some h)) w env =
        some (pre2 ++ a ++ tail) ∧
      renderExpanded (Item.Argument name mv (some e) (some h)) w env =
        some (pre1 ++ "\n" ++ (spaces (w + 6) ++ a ++ tail)) ∧
      pre2.length = w + 6 ∧ noNl pre2 ∧ noNl pre1 := by
  have hfw3 : (Item.Argument name mv (some e) (some h)).full_width =
      name.full_width + mv.length + 3 := rfl
  refine ⟨"    " ++ name.fmtAlt ++ " <" ++ mv ++ ">"
      ++ spaces (w - (Item.Argument name mv (some e) (some h)).full_width)
      ++ "  [env:" ++ e ++ envVal env e ++ "]",
    "    " ++ name.fmtAlt ++ " <" ++ mv ++ ">"
      ++ spaces (w - (Item.Argument name mv (some e) (some h)).full_width) ++ "  ",
    renderHelpRest w rest, ?_, ?_, ?_, ?_, ?_⟩
  · rw [fmt_expanded_some_help (Item.Argument name mv none (some h)) w env
      ("    " ++ name.fmtAlt ++ " <" ++ mv ++ ">") h rfl rfl hw, hsplit]
    simp only [renderHelp]
    refine congrArg some (String.ext ?_)
    simp [data_append, List.append_assoc, Item.full_width]
  · rw [fmt_expanded_some_help _ w env _ h (seg1_Arg_env name mv e (some h) w env hw)
      rfl hw, hsplit]
    simp only [renderHelp]
    refine congrArg some (String.ext ?_)
    have hbr : ("]\n" : String).data = [']', '\n'] := rfl
    have hb1 : ("]" : String).data = [']'] := rfl
    have hn1 : ("\n" : String).data = ['\n'] := rfl
    have h2s : ("  " : String).data = List.replicate 2 ' ' := rfl
    have hrep : List.replicate (w + 6) ' ' =
        List.replicate (4 + (Item.Argument name mv (some e) (some h)).full_width) ' '
          ++ (List.replicate (w - (Item.Argument name mv (some e) (some h)).full_width) ' '
          ++ List.replicate 2 ' ') := by
      rw [← List.replicate_add, ← List.replicate_add]
      congr 1
      omega
    simp [data_append, spaces_data, hbr, hb1, hn1, h2s, hrep, List.append_assoc]
  · simp only [length_append, fmtAlt_length, spaces_length]
    have h4 : ("    " : String).length = 4 := rfl
    have hlt : (" <" : String).length = 2 := rfl
    have hgt : (">" : String).length = 1 := rfl
    have h2 : ("  " : String).length = 2 := rfl
    omega
  · rw [noNl_append, noNl_append, noNl_append, noNl_append, noNl_append,
      noNl_append]
    exact ⟨⟨⟨⟨⟨⟨by decide, noNl_fmtAlt hname⟩, by decide⟩, hmv⟩, by decide⟩,
      noNl_spaces _⟩, by decide⟩
  · rw [noNl_append, noNl_append, noNl_append, noNl_append, noNl_append,
      noNl_append, noNl_append, noNl_append, noNl_append]
    exact ⟨⟨⟨⟨⟨⟨⟨⟨⟨by decide, noNl_fmtAlt hname⟩, by decide⟩, hmv⟩, by decide⟩,
      noNl_spaces _⟩, by decide⟩, he⟩, noNl_envVal env e⟩, by decide⟩

/-- Witness for claim C7 at a concrete input: short name, metavar `M`,
variable `E`, single-line help `x`, width 6. -/
theorem claim_C7_w :
    ∃ pre1 pre2 tail : String,
      renderExpanded (Item.Argument (.Short 'a') "M" none (some "x")) 6 envAllUnset =
        some (pre2 ++ "x" ++ tail) ∧
      renderExpanded (Item.Argument (.Short 'a') "M" (some "E") (some "x")) 6
          envAllUnset =
        some (pre1 ++ "\n" ++ (spaces (6 + 6) ++ "x" ++ tail)) ∧
      pre2.length = 6 + 6 ∧ noNl pre2 ∧ noNl pre1 :=
  claim_C7 (.Short 'a') "M" "E" "x" "x" [] 6 envAllUnset (by decide) (by decide)
    (by decide) (by decide) (by decide)

/-- Witness for claim C1 at a concrete input: variable `FOO` set to
`bar`, width equal to the natural width 6. -/
theorem claim_C1_w :
    renderExpanded (Item.Argument (.Short 'a') "M" (some "FOO") (some "h")) 6
      (fun _ => EnvVal.text "bar") =
    some "    -a <M>  [env:FOO = \"bar\"]\n            h" := by
  have h := claim_C1 (.Short 'a') "M" "FOO" (some "h") 6 (fun _ => EnvVal.text "bar")
    (by decide)
  rw [h]
  decide

end Bpaf
